import Mathlib

/-!
Verification of the go-metrics-project collector/agent pipeline.

Shallow embedding of the repository's storage engine
(`internal/repository/repository.go`), snapshot persistence
(`internal/service/service.go`), agent batch sender
(`internal/agent/agent.go`) and the batch-update route.

Modelling conventions:
* Go `map[string]V` is an association list `List (String × V)` with
  insert-overwrite update (`mapSet`) and lookup (`mapGet`); iteration order
  of a Go map is unspecified, so properties about `GetAll` are stated up to
  set membership / permutation.
* Go `int64` is `Int` together with explicit two's-complement wrapping
  (`wrap64`) wherever the code performs arithmetic.
* Go `float64` gauge values are only ever stored and copied by the code in
  scope (never used arithmetically), so they are modelled by their 64-bit
  patterns (`FloatBits`, a `Nat`).
* fallible Go functions return `Except`/`Option`; a nil-pointer dereference
  (panic) is modelled as `none`.
-/

set_option linter.unusedVariables false

namespace GoMetrics

/-- Bit pattern of a Go `float64` value; the code in scope stores and copies
gauge values without any floating-point arithmetic. -/
abbrev FloatBits := Nat

/-- Value of 2^63, the magnitude bound of Go `int64`. -/
def two63 : Int := 9223372036854775808

/-- Value of 2^64. -/
def two64 : Int := 18446744073709551616

/-- Two's-complement wrap of an integer into the `int64` range, the semantics
of Go `int64` addition. -/
def wrap64 (z : Int) : Int := (z + two63) % two64 - two63

/-- Predicate: the integer is representable as a Go `int64`. -/
def isInt64 (z : Int) : Prop := -two63 ≤ z ∧ z < two63

instance (z : Int) : Decidable (isInt64 z) := by
  unfold isInt64
  exact inferInstance

/-- Go map update `m[k] = v` on the association-list model: replaces the
binding of `k` in place, or appends it. -/
def mapSet {α : Type} (k : String) (v : α) : List (String × α) → List (String × α)
  | [] => [(k, v)]
  | p :: rest => if p.1 = k then (k, v) :: rest else p :: mapSet k v rest

/-- Go map lookup `m[k]` on the association-list model. -/
def mapGet {α : Type} (k : String) : List (String × α) → Option α
  | [] => none
  | p :: rest => if p.1 = k then some p.2 else mapGet k rest

/-- Keys of an association list. -/
def keys {α : Type} (l : List (String × α)) : List String := l.map Prod.fst

/-- Metric record: `models.Metrics` from `internal/models/metrics.go`.
`Delta` and `Value` are pointers in Go (nullable), hence `Option` here. -/
structure Metrics where
  ID : String
  MType : String
  Delta : Option Int := none
  Value : Option FloatBits := none
  Hash : String := ""
deriving DecidableEq, Repr

/-- In-memory storage: `repository.MemStorage` (two separate maps; the mutex
only guards concurrent access and has no sequential meaning). -/
structure MemStorage where
  Gauges : List (String × FloatBits)
  Counters : List (String × Int)
deriving DecidableEq, Repr

/-- Constructor `repository.NewMemStorage`: empty maps. -/
def NewMemStorage : MemStorage := { Gauges := [], Counters := [] }

/-- Method `MemStorage.SetGauge`: `m.Gauges[name] = value` (overwrite). -/
def SetGauge (m : MemStorage) (name : String) (value : FloatBits) : MemStorage :=
  { m with Gauges := mapSet name value m.Gauges }

/-- Method `MemStorage.GetGauge`: lookup, "metric not found" error when the
name is absent. -/
def GetGauge (m : MemStorage) (name : String) : Except String FloatBits :=
  match mapGet name m.Gauges with
  | none => Except.error "metric not found"
  | some v => Except.ok v

/-- Method `MemStorage.SetCounter`: `m.Counters[name] += value`; a missing
key reads as zero, and the `int64` addition wraps. -/
def SetCounter (m : MemStorage) (name : String) (value : Int) : MemStorage :=
  { m with Counters := mapSet name (wrap64 ((mapGet name m.Counters).getD 0 + value)) m.Counters }

/-- Method `MemStorage.GetCounter`: lookup, "metric not found" error when the
name is absent. -/
def GetCounter (m : MemStorage) (name : String) : Except String Int :=
  match mapGet name m.Counters with
  | none => Except.error "metric not found"
  | some v => Except.ok v

/-- Record emitted by `MemStorage.GetAll` for a stored counter. -/
def counterRecord (n : String) (c : Int) : Metrics :=
  { ID := n, MType := "counter", Delta := some c }

/-- Record emitted by `MemStorage.GetAll` for a stored gauge. -/
def gaugeRecord (n : String) (v : FloatBits) : Metrics :=
  { ID := n, MType := "gauge", Value := some v }

/-- Method `MemStorage.GetAll`: all counters then all gauges as records (map
iteration order is unspecified in Go; this list fixes one order, and all
properties below are stated up to membership or permutation). -/
def GetAll (m : MemStorage) : List Metrics :=
  m.Counters.map (fun p => counterRecord p.1 p.2) ++
    m.Gauges.map (fun p => gaugeRecord p.1 p.2)

/-- Method `MemStorage.InsertMetricsBatch`: applies each record in order via
`SetGauge` / `SetCounter`, dereferencing `metric.Value` / `metric.Delta`
without a nil check; a record of the matching kind with a missing field is a
nil-pointer panic, modelled as `none`. Unknown kinds are skipped. -/
def InsertMetricsBatch (m : MemStorage) : List Metrics → Option MemStorage
  | [] => some m
  | r :: rest =>
    if r.MType = "gauge" then
      match r.Value with
      | none => none
      | some v => InsertMetricsBatch (SetGauge m r.ID v) rest
    else if r.MType = "counter" then
      match r.Delta with
      | none => none
      | some d => InsertMetricsBatch (SetCounter m r.ID d) rest
    else InsertMetricsBatch m rest

/-- Loop body of `service.loadFromFile`: applies each record via `SetGauge` /
`SetCounter`, skipping records whose matching field is nil and records of
unknown kind. -/
def loadMetrics (store : MemStorage) : List Metrics → MemStorage
  | [] => store
  | r :: rest =>
    if r.MType = "gauge" then
      match r.Value with
      | some v => loadMetrics (SetGauge store r.ID v) rest
      | none => loadMetrics store rest
    else if r.MType = "counter" then
      match r.Delta with
      | some d => loadMetrics (SetCounter store r.ID d) rest
      | none => loadMetrics store rest
    else loadMetrics store rest

/-- A record is well-formed for `MemStorage.InsertMetricsBatch` when the
field matching its kind is present (no nil-pointer dereference). -/
def recordWF (r : Metrics) : Bool :=
  (if r.MType = "gauge" then r.Value.isSome else true) &&
    (if r.MType = "counter" then r.Delta.isSome else true)

/-- One mutating storage operation, for stating trace properties. -/
inductive Op where
  | setGauge (name : String) (value : FloatBits)
  | setCounter (name : String) (delta : Int)
  | insertBatch (batch : List Metrics)
deriving Repr

/-- Effect of one operation on the store (`none` models a panic inside
`InsertMetricsBatch`). -/
def applyOp (m : MemStorage) : Op → Option MemStorage
  | Op.setGauge n v => some (SetGauge m n v)
  | Op.setCounter n d => some (SetCounter m n d)
  | Op.insertBatch b => InsertMetricsBatch m b

/-- Effect of a sequence of operations on the store. -/
def applyOps (m : MemStorage) : List Op → Option MemStorage
  | [] => some m
  | op :: rest =>
    match applyOp m op with
    | none => none
    | some s => applyOps s rest

/-- Whether an operation sets a gauge under the given name. -/
def opSetsGauge (n : String) : Op → Bool
  | Op.setGauge k _ => decide (k = n)
  | Op.setCounter _ _ => false
  | Op.insertBatch b => b.any fun r => decide (r.MType = "gauge") && decide (r.ID = n)

/-- Whether an operation sets a counter under the given name. -/
def opSetsCounter (n : String) : Op → Bool
  | Op.setGauge _ _ => false
  | Op.setCounter k _ => decide (k = n)
  | Op.insertBatch b => b.any fun r => decide (r.MType = "counter") && decide (r.ID = n)

/-- Applying `SetCounter` once per delta, in order — the sequential calls the
counter-accumulation property quantifies over. -/
def setCounterSeq (m : MemStorage) (n : String) (ds : List Int) : MemStorage :=
  ds.foldl (fun s d => SetCounter s n d) m

/-- Counter deltas carried by the batch for a given id, in batch order
(records of other kinds or other ids contribute nothing). -/
def counterDeltasOf (b : List Metrics) (n : String) : List Int :=
  b.filterMap fun r => if r.MType = "counter" ∧ r.ID = n then r.Delta else none

/-- Last element of a list, if any. -/
def lastOpt {α : Type} : List α → Option α
  | [] => none
  | a :: rest =>
    match lastOpt rest with
    | none => some a
    | some b => some b

/-- Gauge values carried by the batch for a given id, in batch order. -/
def gaugeValuesOf (b : List Metrics) (n : String) : List FloatBits :=
  b.filterMap fun r => if r.MType = "gauge" ∧ r.ID = n then r.Value else none

/-- Last gauge value carried by the batch for a given id, in batch order. -/
def lastGaugeOf (b : List Metrics) (n : String) : Option FloatBits :=
  lastOpt (gaugeValuesOf b n)

/-- Specification-side counter state of "merge duplicates first, then apply
the merged set": deltas sharing an id are summed and added to the prior
total in one `int64` addition chain. Written from the claim's words, to be
compared with the code's sequential `InsertMetricsBatch`. -/
def mergedCounterLookup (m : MemStorage) (b : List Metrics) (n : String) : Option Int :=
  if counterDeltasOf b n = [] then mapGet n m.Counters
  else some (wrap64 ((mapGet n m.Counters).getD 0 + (counterDeltasOf b n).sum))

/-- Specification-side gauge state of "merge duplicates first, then apply the
merged set": the last gauge value for an id in batch order wins. Written
from the claim's words. -/
def mergedGaugeLookup (m : MemStorage) (b : List Metrics) (n : String) : Option FloatBits :=
  match lastGaugeOf b n with
  | some v => some v
  | none => mapGet n m.Gauges

/-- Well-formed store: map keys are unique (as in a Go map) and stored
counters are within the `int64` range (as produced by `wrap64`). -/
def WFStore (s : MemStorage) : Prop :=
  (keys s.Gauges).Nodup ∧ (keys s.Counters).Nodup ∧ ∀ p ∈ s.Counters, isInt64 p.2

/-- Snapshot serialization (`service.serializeMetrics` / `json.MarshalIndent`).
The JSON byte level is abstracted as faithful on record lists: Go's
`encoding/json` round-trips these flat records field by field. -/
def serializeMetrics (l : List Metrics) : List Metrics := l

/-- Snapshot deserialization (`service.deserializeMetrics` /
`json.Unmarshal`), abstracted as the inverse of `serializeMetrics`. -/
def deserializeMetrics (l : List Metrics) : List Metrics := l

/-- Body of `service.saveToFile`: the file content is the serialized
`GetAll` listing. -/
def saveSnapshot (s : MemStorage) : List Metrics := serializeMetrics (GetAll s)

/-- Body of `service.loadFromFile`: deserialize the file and replay every
known record through `SetGauge` / `SetCounter`. -/
def loadSnapshot (s : MemStorage) (file : List Metrics) : MemStorage :=
  loadMetrics s (deserializeMetrics file)

/-- One row of the `metrics` table (`name TEXT PRIMARY KEY, type TEXT,
value DOUBLE PRECISION, delta BIGINT` per `db.CreateTableDB`); `type` is the
row's `type` column. -/
structure DBRow where
  delta : Option Int := none
  rowType : String := ""
  value : Option FloatBits := none
deriving DecidableEq, Repr

/-- State of the `metrics` table, keyed by the primary key `name`. -/
abbrev DBState := List (String × DBRow)

/-- Accumulator entry of `DBStorage.InsertMetricsBatch`'s pre-merge loop
(the local `batchItem` struct; the Go zero value has empty type and nil
pointers). -/
structure BatchItem where
  MType : String := ""
  Value : Option FloatBits := none
  Delta : Option Int := none
deriving DecidableEq, Repr

/-- Pre-merge loop of `DBStorage.InsertMetricsBatch` (lines 122-147): skips
records with empty id or empty type, merges by id only — a gauge value
overwrites, counter deltas accumulate (`int64` addition) — and writes the
item back into `tmp` unconditionally, even when the matching field was nil. -/
def dbMergeLoop : List Metrics → List (String × BatchItem) → List (String × BatchItem)
  | [], tmp => tmp
  | r :: rest, tmp =>
    if r.ID = "" ∨ r.MType = "" then dbMergeLoop rest tmp
    else
      let b := (mapGet r.ID tmp).getD {}
      let b2 :=
        if r.MType = "gauge" then
          match r.Value with
          | some v => { b with MType := "gauge", Value := some v }
          | none => b
        else if r.MType = "counter" then
          match r.Delta with
          | some d => { b with MType := "counter", Delta := some (wrap64 (b.Delta.getD 0 + d)) }
          | none => b
        else b
      dbMergeLoop rest (mapSet r.ID b2 tmp)

/-- SQL addition on nullable `BIGINT`: any NULL operand yields NULL.
Postgres would raise on `bigint` overflow; the wrap stands in for ordinary
addition and no property below exercises the overflow case. -/
def sqlAdd (a b : Option Int) : Option Int :=
  match a, b with
  | some x, some y => some (wrap64 (x + y))
  | _, _ => none

/-- Effect of one row of the `INSERT ... ON CONFLICT (name) DO UPDATE`
statement built by `DBStorage.InsertMetricsBatch`: the inserted row carries
`delta` only for a counter item and `value` only for a gauge item; on
conflict, `type` is overwritten, `delta` becomes `old + new` only when the
incoming type is `counter`, and `value` is overwritten only when the
incoming type is `gauge`. -/
def dbUpsert (st : DBState) (id : String) (b : BatchItem) : DBState :=
  let newDelta : Option Int := if b.MType = "counter" then b.Delta else none
  let newValue : Option FloatBits := if b.MType = "gauge" then b.Value else none
  match mapGet id st with
  | none => mapSet id { delta := newDelta, rowType := b.MType, value := newValue } st
  | some old =>
    mapSet id
      { delta := if b.MType = "counter" then sqlAdd old.delta newDelta else newDelta
        rowType := b.MType
        value := if b.MType = "gauge" then newValue else old.value } st

/-- Method `DBStorage.InsertMetricsBatch`: early return on an empty batch or
an empty merge accumulator, otherwise one upsert per merged id (the merged
ids are distinct, so application order does not matter; the accumulator's
list order is used). -/
def DBInsertMetricsBatch (st : DBState) (l : List Metrics) : DBState :=
  if l = [] then st
  else
    let tmp := dbMergeLoop l []
    if tmp = [] then st
    else tmp.foldl (fun acc p => dbUpsert acc p.1 p.2) st

/-- External codec primitives used by the agent's send path (Go standard
library / `cryptoutil`), abstracted as functions on byte lists: JSON
marshalling of the batch, gzip compression, HMAC-SHA256 (key, data), and
`cryptoutil.EncryptDataHybrid` with its randomness fixed. -/
structure AgentCodec where
  jsonMarshal : List Metrics → List Nat
  gzipCompress : List Nat → List Nat
  hmacSHA256 : String → List Nat → List Nat
  encryptHybrid : List Nat → List Nat

/-- Lowercase hexadecimal digit for a value below 16 (Go's hex alphabet). -/
def hexDigitChar (n : Nat) : Char := Nat.digitChar n

/-- Character expansion of `hex.EncodeToString`: two digits per byte. -/
def hexChars : List Nat → List Char
  | [] => []
  | b :: rest => hexDigitChar (b / 16 % 16) :: hexDigitChar (b % 16) :: hexChars rest

/-- Go `hex.EncodeToString` on the byte-list model. -/
def hexEncode (bs : List Nat) : String := String.mk (hexChars bs)

/-- Function `agent.calculateSHA256Hash`: hex-encoded HMAC-SHA256 of the
data under the key. -/
def calculateSHA256Hash (c : AgentCodec) (data : List Nat) (key : String) : String :=
  hexEncode (c.hmacSHA256 key data)

/-- Outgoing HTTP request (method, url, ordered headers, body bytes). -/
structure HttpRequest where
  method : String
  url : String
  headers : List (String × String)
  body : List Nat
deriving Repr

/-- Request built by `agent.sendMetricsBatch` (lines 96-144): marshal the
batch, gzip it, compute the HMAC header over the compressed bytes when a key
is configured, then optionally hybrid-encrypt the buffer, and set the
`HashSHA256` header exactly when the computed hash string is non-empty. -/
def sendMetricsBatchRequest (c : AgentCodec) (metrics : List Metrics)
    (endpoint key : String) (encryptEnabled : Bool) : HttpRequest :=
  let data := c.jsonMarshal metrics
  let buffer := c.gzipCompress data
  let hashString := if key ≠ "" then calculateSHA256Hash c buffer key else ""
  let wireBody := if encryptEnabled then c.encryptHybrid buffer else buffer
  let baseHeaders := [("Content-Type", "application/json"), ("Content-Encoding", "gzip")]
  { method := "POST"
    url := endpoint ++ "/updates"
    headers := if hashString ≠ "" then baseHeaders ++ [("HashSHA256", hashString)] else baseHeaders
    body := wireBody }

/-- Outcome of one HTTP attempt as seen by the retry client: a transport
error (connection refused, dial failure — a retryable `url.Error`) or a
response with a status code. -/
inductive AttemptResult where
  | transportError
  | response (status : Nat)
deriving DecidableEq, Repr

/-- Retry classification of go-retryablehttp v0.7.8's `DefaultRetryPolicy`
(the agent sets no custom `CheckRetry`): every transport error is retried;
a response is retried exactly when its status is 0, 429, or 500-range other
than 501. -/
def shouldRetry : AttemptResult → Bool
  | AttemptResult.transportError => true
  | AttemptResult.response s => s == 0 || s == 429 || (decide (500 ≤ s) && decide (s ≠ 501))

/-- Function `agent.customBackoff` (in whole seconds): fixed delays 1, 3, 5
indexed by the attempt number, clamped to the last entry; the `min`/`max`
arguments are ignored by the source. -/
def customBackoff (minW maxW attemptNum : Nat) : Nat :=
  let delays := [1, 3, 5]
  let indx := if attemptNum ≥ delays.length then delays.length - 1 else attemptNum
  delays.getD indx 0

/-- Retry loop of go-retryablehttp's `Client.Do` with the repository's
configuration: attempt `i`, stop when the outcome is not retryable or no
budget remains, otherwise wait `customBackoff RetryWaitMin RetryWaitMax i`
and continue. Returns the number of attempts made and the waits taken. -/
def retryGo (outcomes : Nat → AttemptResult) : Nat → Nat → Nat × List Nat
  | i, 0 => (1, [])
  | i, remain + 1 =>
    if shouldRetry (outcomes i) then
      let rest := retryGo outcomes (i + 1) remain
      (rest.1 + 1, customBackoff 1 3 i :: rest.2)
    else (1, [])

/-- One `client.Do` call of `agent.sendMetricsBatch`: `RetryMax = 3`,
`RetryWaitMin = 1` second, `RetryWaitMax = 3` seconds, backoff
`customBackoff`. -/
def clientDo (outcomes : Nat → AttemptResult) : Nat × List Nat :=
  retryGo outcomes 0 3

/-- Server-side handler tag, one per routed endpoint. -/
inductive Handler where
  | listAll
  | pingCheck
  | updatePath
  | updateJSON
  | updatesBatch
  | valuePath
  | valueJSON
deriving DecidableEq, Repr

/-- Modelled from the spec: the route table of the collector's final router.
The handlers.go revision that registers the batch endpoint is absent from
src/ (only its tests and the agent's POST to `/updates` appear there), so
the table follows the spec's route table (section 6) and routing list
(section 4.4). -/
def serverRoutes : List (String × String × Handler) :=
  [("GET", "/", Handler.listAll),
   ("GET", "/ping", Handler.pingCheck),
   ("POST", "/update", Handler.updateJSON),
   ("POST", "/update/{typeMetric}/{metric}/{value}", Handler.updatePath),
   ("POST", "/updates", Handler.updatesBatch),
   ("GET", "/value/{typeMetric}/{metric}", Handler.valuePath),
   ("POST", "/value", Handler.valueJSON)]

/-- Handler registered for a method and path pattern, if any. -/
def routeFor (method path : String) : Option Handler :=
  match serverRoutes.find? fun e => decide (e.1 = method) && decide (e.2.1 = path) with
  | some e => some e.2.2
  | none => none

/-- Modelled from the spec: the `/updates` handler decodes the request body
as a JSON array of MetricRecord (decoding abstracted: the body arrives as
the decoded list) and applies it to the storage engine as one batch update. -/
def handleUpdates (storage : MemStorage) (body : List Metrics) : Option MemStorage :=
  InsertMetricsBatch storage body

/-! Arithmetic facts about the `int64` wrap. -/

theorem wrap64_absorb (a b : Int) : wrap64 (wrap64 a + b) = wrap64 (a + b) := by
  simp only [wrap64, two63, two64]
  omega

theorem wrap64_eq_self {a : Int} (h : isInt64 a) : wrap64 a = a := by
  rcases h with ⟨h1, h2⟩
  simp only [two63] at h1 h2
  simp only [wrap64, two63, two64]
  omega

theorem isInt64_wrap64 (z : Int) : isInt64 (wrap64 z) := by
  constructor <;> simp only [wrap64, two63, two64] <;> omega

/-! Lemmas about the association-list model of Go maps. -/

theorem mapGet_mapSet {α : Type} (k q : String) (v : α) (l : List (String × α)) :
    mapGet q (mapSet k v l) = if k = q then some v else mapGet q l := by
  induction l with
  | nil => simp [mapSet, mapGet]
  | cons p rest ih =>
    simp only [mapSet]
    by_cases hk : p.1 = k
    · by_cases hq : k = q
      · simp [mapGet, hq, hk, if_pos hk]
      · simp [mapGet, hq, hk, if_pos hk]
    · rw [if_neg hk]
      by_cases hpq : p.1 = q
      · have hkq : ¬(k = q) := fun h => hk (hpq.trans h.symm)
        simp [mapGet, hpq, hkq]
      · simp [mapGet, hpq, ih]

theorem mem_of_mapGet_some {α : Type} {k : String} {v : α} :
    ∀ {l : List (String × α)}, mapGet k l = some v → (k, v) ∈ l := by
  intro l
  induction l with
  | nil => intro h; simp [mapGet] at h
  | cons p rest ih =>
    intro h
    simp only [mapGet] at h
    by_cases hp : p.1 = k
    · rw [if_pos hp] at h
      obtain ⟨a, b⟩ := p
      simp only at hp
      subst hp
      cases h
      exact List.mem_cons_self _ _
    · rw [if_neg hp] at h
      exact List.mem_cons_of_mem _ (ih h)

theorem mapGet_some_of_mem {α : Type} {k : String} {v : α} :
    ∀ {l : List (String × α)}, (keys l).Nodup → (k, v) ∈ l → mapGet k l = some v := by
  intro l
  induction l with
  | nil => intro _ hm; simp at hm
  | cons p rest ih =>
    intro hnd hm
    simp only [keys, List.map_cons, List.nodup_cons] at hnd
    rcases List.mem_cons.mp hm with h | h
    · rw [← h]
      simp [mapGet]
    · have hp : p.1 ≠ k := by
        intro he
        apply hnd.1
        have : (k, v).1 ∈ rest.map Prod.fst := List.mem_map_of_mem Prod.fst h
        rw [he]
        exact this
      simp only [mapGet, if_neg hp]
      exact ih hnd.2 h

theorem mapGet_eq_none_iff {α : Type} (k : String) (l : List (String × α)) :
    mapGet k l = none ↔ k ∉ keys l := by
  induction l with
  | nil => simp [mapGet, keys]
  | cons p rest ih =>
    by_cases hp : p.1 = k
    · simp [mapGet, hp, keys]
    · have hkp : ¬(k = p.1) := fun h => hp h.symm
      simp only [mapGet, if_neg hp, keys, List.map_cons, List.mem_cons]
      simp only [keys] at ih
      rw [ih]
      simp [hkp]

theorem mem_keys_mapSet {α : Type} (k q : String) (v : α) (l : List (String × α)) :
    q ∈ keys (mapSet k v l) ↔ q = k ∨ q ∈ keys l := by
  induction l with
  | nil => simp [mapSet, keys]
  | cons p rest ih =>
    by_cases hp : p.1 = k
    · subst hp
      simp [mapSet, keys]
    · simp [mapSet, hp, keys] at ih ⊢
      tauto

theorem nodup_keys_mapSet {α : Type} (k : String) (v : α) :
    ∀ {l : List (String × α)}, (keys l).Nodup → (keys (mapSet k v l)).Nodup := by
  intro l
  induction l with
  | nil => intro _; simp [mapSet, keys]
  | cons p rest ih =>
    intro h
    simp only [keys, List.map_cons, List.nodup_cons] at h
    by_cases hp : p.1 = k
    · simp only [mapSet, if_pos hp, keys, List.map_cons, List.nodup_cons]
      exact ⟨by rw [← hp]; exact h.1, h.2⟩
    · simp only [mapSet, if_neg hp, keys, List.map_cons, List.nodup_cons]
      constructor
      · intro hm
        rcases (mem_keys_mapSet k p.1 v rest).mp hm with he | hm2
        · exact hp he
        · exact h.1 hm2
      · exact ih h.2

theorem mem_mapSet {α : Type} {p : String × α} {k : String} {v : α} :
    ∀ {l : List (String × α)}, p ∈ mapSet k v l → p = (k, v) ∨ p ∈ l := by
  intro l
  induction l with
  | nil => intro h; simp [mapSet] at h; exact Or.inl h
  | cons q rest ih =>
    intro h
    by_cases hq : q.1 = k
    · simp only [mapSet, if_pos hq] at h
      rcases List.mem_cons.mp h with h1 | h1
      · exact Or.inl h1
      · exact Or.inr (List.mem_cons_of_mem _ h1)
    · simp only [mapSet, if_neg hq] at h
      rcases List.mem_cons.mp h with h1 | h1
      · exact Or.inr (h1 ▸ List.mem_cons_self _ _)
      · rcases ih h1 with h2 | h2
        · exact Or.inl h2
        · exact Or.inr (List.mem_cons_of_mem _ h2)

theorem filterMap_key_eq_nil {α : Type} {n : String} :
    ∀ {l : List (String × α)}, n ∉ keys l →
      (l.filterMap fun p => if p.1 = n then some p.2 else none) = [] := by
  intro l
  induction l with
  | nil => intro _; rfl
  | cons p rest ih =>
    intro h
    simp only [keys, List.map_cons, List.mem_cons] at h
    push_neg at h
    have hp : p.1 ≠ n := fun he => h.1 he.symm
    simp only [List.filterMap_cons, if_neg hp]
    exact ih (by simpa [keys] using h.2)

theorem filterMap_key_eq {α : Type} (n : String) :
    ∀ {l : List (String × α)}, (keys l).Nodup →
      (l.filterMap fun p => if p.1 = n then some p.2 else none) =
        (mapGet n l).elim [] (fun c => [c]) := by
  intro l
  induction l with
  | nil => intro _; rfl
  | cons p rest ih =>
    intro hnd
    simp only [keys, List.map_cons, List.nodup_cons] at hnd
    by_cases hp : p.1 = n
    · have hrest : n ∉ keys rest := by rw [← hp]; exact hnd.1
      simp only [List.filterMap_cons, if_pos hp, mapGet]
      rw [filterMap_key_eq_nil hrest]
      rfl
    · simp only [List.filterMap_cons, if_neg hp, mapGet]
      exact ih hnd.2

/-! Unfolding lemmas for the per-batch delta / gauge projections. -/

theorem counterDeltasOf_cons (r : Metrics) (rest : List Metrics) (n : String) :
    counterDeltasOf (r :: rest) n =
      if r.MType = "counter" ∧ r.ID = n then
        (match r.Delta with
         | some d => d :: counterDeltasOf rest n
         | none => counterDeltasOf rest n)
      else counterDeltasOf rest n := by
  simp only [counterDeltasOf, List.filterMap_cons]
  by_cases h : r.MType = "counter" ∧ r.ID = n
  · rw [if_pos h, if_pos h]
    cases r.Delta <;> rfl
  · rw [if_neg h, if_neg h]

theorem gaugeValuesOf_cons (r : Metrics) (rest : List Metrics) (n : String) :
    gaugeValuesOf (r :: rest) n =
      if r.MType = "gauge" ∧ r.ID = n then
        (match r.Value with
         | some v => v :: gaugeValuesOf rest n
         | none => gaugeValuesOf rest n)
      else gaugeValuesOf rest n := by
  simp only [gaugeValuesOf, List.filterMap_cons]
  by_cases h : r.MType = "gauge" ∧ r.ID = n
  · rw [if_pos h, if_pos h]
    cases r.Value <;> rfl
  · rw [if_neg h, if_neg h]

/-! The loaded / batch-inserted store, described extensionally. -/

theorem loadMetrics_counters (b : List Metrics) :
    ∀ (m : MemStorage) (n : String),
      mapGet n (loadMetrics m b).Counters = mergedCounterLookup m b n := by
  induction b with
  | nil =>
    intro m n
    simp [loadMetrics, mergedCounterLookup, counterDeltasOf]
  | cons r rest ih =>
    intro m n
    by_cases hg : r.MType = "gauge"
    · have hc : ¬(r.MType = "counter" ∧ r.ID = n) := by
        rintro ⟨h1, _⟩
        rw [hg] at h1
        exact absurd h1 (by decide)
      have hdel : counterDeltasOf (r :: rest) n = counterDeltasOf rest n := by
        rw [counterDeltasOf_cons, if_neg hc]
      cases hv : r.Value with
      | some v =>
        simp only [loadMetrics, if_pos hg, hv]
        rw [ih]
        simp only [mergedCounterLookup, hdel, SetGauge]
      | none =>
        simp only [loadMetrics, if_pos hg, hv]
        rw [ih]
        simp only [mergedCounterLookup, hdel]
    · by_cases hcn : r.MType = "counter"
      · cases hd : r.Delta with
        | some d =>
          simp only [loadMetrics, if_neg hg, if_pos hcn, hd]
          rw [ih]
          by_cases hid : r.ID = n
          · have hdel : counterDeltasOf (r :: rest) n = d :: counterDeltasOf rest n := by
              rw [counterDeltasOf_cons, if_pos ⟨hcn, hid⟩, hd]
            have hset : mapGet n (SetCounter m r.ID d).Counters =
                some (wrap64 ((mapGet n m.Counters).getD 0 + d)) := by
              simp [SetCounter, hid, mapGet_mapSet]
            simp only [mergedCounterLookup, hdel, hset]
            by_cases hrest : counterDeltasOf rest n = []
            · simp [hrest, List.sum_cons]
            · simp only [if_neg hrest, List.sum_cons,
                if_neg (by simp : ¬(d :: counterDeltasOf rest n = []))]
              rw [Option.getD_some, wrap64_absorb]
              ring_nf
          · have hdel : counterDeltasOf (r :: rest) n = counterDeltasOf rest n := by
              rw [counterDeltasOf_cons, if_neg (by rintro ⟨_, h2⟩; exact hid h2)]
            have hset : mapGet n (SetCounter m r.ID d).Counters = mapGet n m.Counters := by
              simp only [SetCounter, mapGet_mapSet, if_neg hid]
            simp only [mergedCounterLookup, hdel, hset]
        | none =>
          have hdel : counterDeltasOf (r :: rest) n = counterDeltasOf rest n := by
            rw [counterDeltasOf_cons]
            by_cases h : r.MType = "counter" ∧ r.ID = n
            · rw [if_pos h, hd]
            · rw [if_neg h]
          simp only [loadMetrics, if_neg hg, if_pos hcn, hd]
          rw [ih]
          simp only [mergedCounterLookup, hdel]
      · have hdel : counterDeltasOf (r :: rest) n = counterDeltasOf rest n := by
          rw [counterDeltasOf_cons, if_neg (by rintro ⟨h1, _⟩; exact hcn h1)]
        simp only [loadMetrics, if_neg hg, if_neg hcn]
        rw [ih]
        simp only [mergedCounterLookup, hdel]

theorem loadMetrics_gauges (b : List Metrics) :
    ∀ (m : MemStorage) (n : String),
      mapGet n (loadMetrics m b).Gauges = mergedGaugeLookup m b n := by
  induction b with
  | nil =>
    intro m n
    simp [loadMetrics, mergedGaugeLookup, lastGaugeOf, gaugeValuesOf, lastOpt]
  | cons r rest ih =>
    intro m n
    by_cases hg : r.MType = "gauge"
    · cases hv : r.Value with
      | some v =>
        simp only [loadMetrics, if_pos hg, hv]
        rw [ih]
        by_cases hid : r.ID = n
        · have hvals : gaugeValuesOf (r :: rest) n = v :: gaugeValuesOf rest n := by
            rw [gaugeValuesOf_cons, if_pos ⟨hg, hid⟩, hv]
          have hset : mapGet n (SetGauge m r.ID v).Gauges = some v := by
            simp [SetGauge, hid, mapGet_mapSet]
          simp only [mergedGaugeLookup, lastGaugeOf, hvals, lastOpt, hset]
          cases lastOpt (gaugeValuesOf rest n) <;> rfl
        · have hvals : gaugeValuesOf (r :: rest) n = gaugeValuesOf rest n := by
            rw [gaugeValuesOf_cons, if_neg (by rintro ⟨_, h2⟩; exact hid h2)]
          have hset : mapGet n (SetGauge m r.ID v).Gauges = mapGet n m.Gauges := by
            simp only [SetGauge, mapGet_mapSet, if_neg hid]
          simp only [mergedGaugeLookup, lastGaugeOf, hvals, hset]
      | none =>
        have hvals : gaugeValuesOf (r :: rest) n = gaugeValuesOf rest n := by
          rw [gaugeValuesOf_cons]
          by_cases h : r.MType = "gauge" ∧ r.ID = n
          · rw [if_pos h, hv]
          · rw [if_neg h]
        simp only [loadMetrics, if_pos hg, hv]
        rw [ih]
        simp only [mergedGaugeLookup, lastGaugeOf, hvals]
    · have hvals : gaugeValuesOf (r :: rest) n = gaugeValuesOf rest n := by
        rw [gaugeValuesOf_cons, if_neg (by rintro ⟨h1, _⟩; exact hg h1)]
      by_cases hcn : r.MType = "counter"
      · cases hd : r.Delta with
        | some d =>
          simp only [loadMetrics, if_neg hg, if_pos hcn, hd]
          rw [ih]
          simp only [mergedGaugeLookup, lastGaugeOf, hvals, SetCounter]
        | none =>
          simp only [loadMetrics, if_neg hg, if_pos hcn, hd]
          rw [ih]
          simp only [mergedGaugeLookup, lastGaugeOf, hvals]
      · simp only [loadMetrics, if_neg hg, if_neg hcn]
        rw [ih]
        simp only [mergedGaugeLookup, lastGaugeOf, hvals]

theorem insertBatch_eq_load (b : List Metrics) :
    ∀ {m s : MemStorage}, InsertMetricsBatch m b = some s → s = loadMetrics m b := by
  induction b with
  | nil =>
    intro m s h
    cases h
    rfl
  | cons r rest ih =>
    intro m s h
    by_cases hg : r.MType = "gauge"
    · cases hv : r.Value with
      | some v =>
        simp only [InsertMetricsBatch, if_pos hg, hv] at h
        simp only [loadMetrics, if_pos hg, hv]
        exact ih h
      | none =>
        simp only [InsertMetricsBatch, if_pos hg, hv] at h
        cases h
    · by_cases hcn : r.MType = "counter"
      · cases hd : r.Delta with
        | some d =>
          simp only [InsertMetricsBatch, if_neg hg, if_pos hcn, hd] at h
          simp only [loadMetrics, if_neg hg, if_pos hcn, hd]
          exact ih h
        | none =>
          simp only [InsertMetricsBatch, if_neg hg, if_pos hcn, hd] at h
          cases h
      · simp only [InsertMetricsBatch, if_neg hg, if_neg hcn] at h
        simp only [loadMetrics, if_neg hg, if_neg hcn]
        exact ih h

theorem insertBatch_isSome (b : List Metrics) :
    ∀ (m : MemStorage), (InsertMetricsBatch m b).isSome = b.all recordWF := by
  induction b with
  | nil => intro m; rfl
  | cons r rest ih =>
    intro m
    simp only [List.all_cons]
    by_cases hg : r.MType = "gauge"
    · have hnc : ¬(r.MType = "counter") := by
        rw [hg]; decide
      cases hv : r.Value with
      | some v =>
        simp only [InsertMetricsBatch, if_pos hg, hv, ih, recordWF, if_pos hg, if_neg hnc,
          Option.isSome_some, Bool.true_and, Bool.and_true]
      | none =>
        simp only [InsertMetricsBatch, if_pos hg, hv, recordWF, if_pos hg, if_neg hnc,
          Option.isSome_none, Option.isSome, Bool.false_and, Bool.and_true]
    · by_cases hcn : r.MType = "counter"
      · cases hd : r.Delta with
        | some d =>
          simp only [InsertMetricsBatch, if_neg hg, if_pos hcn, hd, ih, recordWF,
            if_neg hg, if_pos hcn, Option.isSome_some, Bool.true_and, Bool.and_true]
        | none =>
          simp only [InsertMetricsBatch, if_neg hg, if_pos hcn, hd, recordWF,
            if_neg hg, if_pos hcn, Option.isSome_none, Bool.and_false, Bool.true_and]
          rfl
      · simp only [InsertMetricsBatch, if_neg hg, if_neg hcn, ih, recordWF,
          if_neg hg, if_neg hcn, Bool.true_and]

/-! Preservation of the store invariant. -/

theorem WFStore_new : WFStore NewMemStorage := by
  refine ⟨?_, ?_, ?_⟩ <;> simp [NewMemStorage, keys]

theorem WFStore_SetGauge {s : MemStorage} (h : WFStore s) (n : String) (v : FloatBits) :
    WFStore (SetGauge s n v) := by
  obtain ⟨h1, h2, h3⟩ := h
  exact ⟨nodup_keys_mapSet n v h1, h2, h3⟩

theorem WFStore_SetCounter {s : MemStorage} (h : WFStore s) (n : String) (d : Int) :
    WFStore (SetCounter s n d) := by
  obtain ⟨h1, h2, h3⟩ := h
  refine ⟨h1, nodup_keys_mapSet n _ h2, ?_⟩
  intro p hp
  rcases mem_mapSet hp with he | hm
  · rw [he]
    exact isInt64_wrap64 _
  · exact h3 p hm

theorem WFStore_loadMetrics (b : List Metrics) :
    ∀ {s : MemStorage}, WFStore s → WFStore (loadMetrics s b) := by
  induction b with
  | nil => intro s h; exact h
  | cons r rest ih =>
    intro s h
    by_cases hg : r.MType = "gauge"
    · cases hv : r.Value with
      | some v =>
        simp only [loadMetrics, if_pos hg, hv]
        exact ih (WFStore_SetGauge h _ _)
      | none =>
        simp only [loadMetrics, if_pos hg, hv]
        exact ih h
    · by_cases hcn : r.MType = "counter"
      · cases hd : r.Delta with
        | some d =>
          simp only [loadMetrics, if_neg hg, if_pos hcn, hd]
          exact ih (WFStore_SetCounter h _ _)
        | none =>
          simp only [loadMetrics, if_neg hg, if_pos hcn, hd]
          exact ih h
      · simp only [loadMetrics, if_neg hg, if_neg hcn]
        exact ih h

/-! Characterization of `GetAll`. -/

theorem mem_GetAll_iff {s : MemStorage} (hWF : WFStore s) (t : Metrics) :
    t ∈ GetAll s ↔
      (∃ n c, t = counterRecord n c ∧ mapGet n s.Counters = some c) ∨
      (∃ n v, t = gaugeRecord n v ∧ mapGet n s.Gauges = some v) := by
  obtain ⟨hG, hC, _⟩ := hWF
  simp only [GetAll, List.mem_append, List.mem_map]
  constructor
  · rintro (⟨p, hp, he⟩ | ⟨p, hp, he⟩)
    · exact Or.inl ⟨p.1, p.2, he.symm, mapGet_some_of_mem hC hp⟩
    · exact Or.inr ⟨p.1, p.2, he.symm, mapGet_some_of_mem hG hp⟩
  · rintro (⟨n, c, ht, hget⟩ | ⟨n, v, ht, hget⟩)
    · exact Or.inl ⟨(n, c), mem_of_mapGet_some hget, ht.symm⟩
    · exact Or.inr ⟨(n, v), mem_of_mapGet_some hget, ht.symm⟩

/-- What the snapshot listing of a well-formed store carries for a given
counter name: exactly its stored total, or nothing. -/
theorem counterDeltasOf_GetAll {s : MemStorage} (hC : (keys s.Counters).Nodup) (n : String) :
    counterDeltasOf (GetAll s) n = (mapGet n s.Counters).elim [] (fun c => [c]) := by
  have hgauges : (s.Gauges.map fun p => gaugeRecord p.1 p.2).filterMap
      (fun r => if r.MType = "counter" ∧ r.ID = n then r.Delta else none) = [] := by
    rw [List.filterMap_eq_nil_iff]
    intro r hr
    rcases List.mem_map.mp hr with ⟨p, _, he⟩
    rw [← he]
    simp [gaugeRecord]
  have hcounters : (s.Counters.map fun p => counterRecord p.1 p.2).filterMap
      (fun r => if r.MType = "counter" ∧ r.ID = n then r.Delta else none) =
      s.Counters.filterMap fun p => if p.1 = n then some p.2 else none := by
    rw [List.filterMap_map]
    apply List.filterMap_congr
    intro p _
    simp [counterRecord, Function.comp]
  simp only [counterDeltasOf, GetAll, List.filterMap_append, hgauges, hcounters,
    List.append_nil]
  exact filterMap_key_eq n hC

/-- What the snapshot listing of a well-formed store carries for a given
gauge name: exactly its stored value, or nothing. -/
theorem gaugeValuesOf_GetAll {s : MemStorage} (hG : (keys s.Gauges).Nodup) (n : String) :
    gaugeValuesOf (GetAll s) n = (mapGet n s.Gauges).elim [] (fun v => [v]) := by
  have hcounters : (s.Counters.map fun p => counterRecord p.1 p.2).filterMap
      (fun r => if r.MType = "gauge" ∧ r.ID = n then r.Value else none) = [] := by
    rw [List.filterMap_eq_nil_iff]
    intro r hr
    rcases List.mem_map.mp hr with ⟨p, _, he⟩
    rw [← he]
    simp [counterRecord]
  have hgauges : (s.Gauges.map fun p => gaugeRecord p.1 p.2).filterMap
      (fun r => if r.MType = "gauge" ∧ r.ID = n then r.Value else none) =
      s.Gauges.filterMap fun p => if p.1 = n then some p.2 else none := by
    rw [List.filterMap_map]
    apply List.filterMap_congr
    intro p _
    simp [gaugeRecord, Function.comp]
  simp only [gaugeValuesOf, GetAll, List.filterMap_append, hcounters, hgauges,
    List.nil_append]
  exact filterMap_key_eq n hG

/-! Frame lemmas along operation traces (for the not-found property). -/

theorem gaugeValuesOf_eq_nil {b : List Metrics} {n : String}
    (h : ∀ r ∈ b, ¬(r.MType = "gauge" ∧ r.ID = n)) : gaugeValuesOf b n = [] := by
  rw [gaugeValuesOf, List.filterMap_eq_nil_iff]
  intro r hr
  rw [if_neg (h r hr)]

theorem counterDeltasOf_eq_nil {b : List Metrics} {n : String}
    (h : ∀ r ∈ b, ¬(r.MType = "counter" ∧ r.ID = n)) : counterDeltasOf b n = [] := by
  rw [counterDeltasOf, List.filterMap_eq_nil_iff]
  intro r hr
  rw [if_neg (h r hr)]

theorem applyOp_gauge_none {m s : MemStorage} {n : String} {op : Op}
    (hap : applyOp m op = some s) (hop : opSetsGauge n op = false)
    (h0 : mapGet n m.Gauges = none) : mapGet n s.Gauges = none := by
  cases op with
  | setGauge k v =>
    cases hap
    simp only [opSetsGauge, decide_eq_false_iff_not] at hop
    simp only [SetGauge, mapGet_mapSet, if_neg hop]
    exact h0
  | setCounter k d =>
    cases hap
    exact h0
  | insertBatch b =>
    simp only [applyOp] at hap
    have hs : s = loadMetrics m b := insertBatch_eq_load b hap
    simp only [opSetsGauge] at hop
    have hnil : gaugeValuesOf b n = [] := by
      apply gaugeValuesOf_eq_nil
      intro r hr hcontra
      have hh : (b.any fun r => decide (r.MType = "gauge") && decide (r.ID = n)) = true :=
        List.any_eq_true.mpr ⟨r, hr, by simp [hcontra.1, hcontra.2]⟩
      rw [hop] at hh
      cases hh
    rw [hs, loadMetrics_gauges, mergedGaugeLookup, lastGaugeOf, hnil]
    exact h0

theorem applyOp_counter_none {m s : MemStorage} {n : String} {op : Op}
    (hap : applyOp m op = some s) (hop : opSetsCounter n op = false)
    (h0 : mapGet n m.Counters = none) : mapGet n s.Counters = none := by
  cases op with
  | setGauge k v =>
    cases hap
    exact h0
  | setCounter k d =>
    cases hap
    simp only [opSetsCounter, decide_eq_false_iff_not] at hop
    simp only [SetCounter, mapGet_mapSet, if_neg hop]
    exact h0
  | insertBatch b =>
    simp only [applyOp] at hap
    have hs : s = loadMetrics m b := insertBatch_eq_load b hap
    simp only [opSetsCounter] at hop
    have hnil : counterDeltasOf b n = [] := by
      apply counterDeltasOf_eq_nil
      intro r hr hcontra
      have hh : (b.any fun r => decide (r.MType = "counter") && decide (r.ID = n)) = true :=
        List.any_eq_true.mpr ⟨r, hr, by simp [hcontra.1, hcontra.2]⟩
      rw [hop] at hh
      cases hh
    rw [hs, loadMetrics_counters, mergedCounterLookup, if_pos hnil]
    exact h0

theorem applyOps_gauge_none {n : String} (ops : List Op) :
    ∀ {m s : MemStorage}, applyOps m ops = some s →
      (∀ op ∈ ops, opSetsGauge n op = false) →
      mapGet n m.Gauges = none → mapGet n s.Gauges = none := by
  induction ops with
  | nil =>
    intro m s h _ h0
    cases h
    exact h0
  | cons op rest ih =>
    intro m s h hall h0
    simp only [applyOps] at h
    cases hap : applyOp m op with
    | none => rw [hap] at h; cases h
    | some m2 =>
      rw [hap] at h
      have h1 : mapGet n m2.Gauges = none :=
        applyOp_gauge_none hap (hall op (List.mem_cons_self _ _)) h0
      exact ih h (fun o ho => hall o (List.mem_cons_of_mem _ ho)) h1

theorem applyOps_counter_none {n : String} (ops : List Op) :
    ∀ {m s : MemStorage}, applyOps m ops = some s →
      (∀ op ∈ ops, opSetsCounter n op = false) →
      mapGet n m.Counters = none → mapGet n s.Counters = none := by
  induction ops with
  | nil =>
    intro m s h _ h0
    cases h
    exact h0
  | cons op rest ih =>
    intro m s h hall h0
    simp only [applyOps] at h
    cases hap : applyOp m op with
    | none => rw [hap] at h; cases h
    | some m2 =>
      rw [hap] at h
      have h1 : mapGet n m2.Counters = none :=
        applyOp_counter_none hap (hall op (List.mem_cons_self _ _)) h0
      exact ih h (fun o ho => hall o (List.mem_cons_of_mem _ ho)) h1

/-! Support lemmas for the agent's hash header. -/

theorem hexEncode_ne_empty {bs : List Nat} (h : bs ≠ []) : hexEncode bs ≠ "" := by
  cases bs with
  | nil => exact absurd rfl h
  | cons b rest =>
    intro he
    have : hexChars (b :: rest) = [] := congrArg String.data he
    simp [hexChars] at this

/-! Support lemmas for the sequential counter accumulation. -/

theorem counterDeltasOf_counterSeq (n : String) (ds : List Int) :
    counterDeltasOf (ds.map fun d => counterRecord n d) n = ds := by
  induction ds with
  | nil => rfl
  | cons d rest ih =>
    simp only [counterRecord] at ih ⊢
    simp only [List.map_cons, counterDeltasOf_cons]
    simp [ih]

theorem setCounterSeq_eq_load (m : MemStorage) (n : String) (ds : List Int) :
    setCounterSeq m n ds = loadMetrics m (ds.map fun d => counterRecord n d) := by
  induction ds generalizing m with
  | nil => rfl
  | cons d rest ih =>
    simp only [setCounterSeq, counterRecord] at ih ⊢
    simp only [List.map_cons, loadMetrics, List.foldl_cons]
    rw [if_pos trivial]
    exact ih (SetCounter m n d)

/-! Claim theorems. -/

/-- C1, counterexample: the claim as stated fails on the code — two
`SetCounter` calls of the maximal `int64` delta wrap around, so `GetCounter`
returns -2, not the mathematical sum 2^64 - 2. -/
theorem counter_sum_overflow_cex :
    GetCounter (setCounterSeq NewMemStorage "x"
        [9223372036854775807, 9223372036854775807]) "x" = Except.ok (-2) ∧
      (9223372036854775807 + 9223372036854775807 : Int) ≠ -2 := by
  constructor
  · rfl
  · decide

/-- C1 (amended): starting from a state with no counter stored under the
name, a non-empty sequence of `SetCounter` calls with deltas d1..dk leaves
the two's-complement `int64` wrap of d1 + ... + dk as the counter's value —
which is the exact sum whenever that sum fits in `int64` — and `GetCounter`
then returns it. -/
theorem counter_accumulation (m : MemStorage) (n : String) (ds : List Int)
    (h0 : mapGet n m.Counters = none) (hne : ds ≠ []) :
    GetCounter (setCounterSeq m n ds) n = Except.ok (wrap64 ds.sum) ∧
      (isInt64 ds.sum → GetCounter (setCounterSeq m n ds) n = Except.ok ds.sum) := by
  have hlook : mapGet n (setCounterSeq m n ds).Counters = some (wrap64 ds.sum) := by
    rw [setCounterSeq_eq_load, loadMetrics_counters, mergedCounterLookup,
      counterDeltasOf_counterSeq, if_neg hne, h0]
    simp
  refine ⟨?_, ?_⟩
  · simp only [GetCounter, hlook]
  · intro hint
    simp only [GetCounter, hlook, wrap64_eq_self hint]

/-- C1, witness at the spec's example: SetCounter("x",10); SetCounter("x",5);
SetCounter("x",3) then GetCounter("x") = 18. -/
theorem counter_accumulation_witness :
    GetCounter (setCounterSeq NewMemStorage "x" [10, 5, 3]) "x" = Except.ok 18 := by
  have h := (counter_accumulation NewMemStorage "x" [10, 5, 3] rfl (by decide)).2 (by decide)
  simpa using h

/-- C2: `MemStorage.InsertMetricsBatch` (which applies the records
sequentially) produces exactly the merge-then-apply state: for every name,
the final counter is the prior total plus the sum of that id's deltas, and
the final gauge is the last gauge value for that id in batch order. -/
theorem insertBatch_eq_mergeThenApply (m s : MemStorage) (b : List Metrics)
    (h : InsertMetricsBatch m b = some s) :
    (∀ n, mapGet n s.Counters = mergedCounterLookup m b n) ∧
      (∀ n, mapGet n s.Gauges = mergedGaugeLookup m b n) := by
  have hs : s = loadMetrics m b := insertBatch_eq_load b h
  subst hs
  exact ⟨fun n => loadMetrics_counters b m n, fun n => loadMetrics_gauges b m n⟩

/-- C2, witness at the spec's example: one batch of three counter records
with deltas 10, 20, 30 yields the same store as three sequential
`SetCounter` calls, with GetCounter("c") = 60. -/
theorem insertBatch_eq_mergeThenApply_witness :
    mapGet "c" (MemStorage.mk [] [("c", 60)]).Counters =
        mergedCounterLookup NewMemStorage
          [counterRecord "c" 10, counterRecord "c" 20, counterRecord "c" 30] "c" ∧
      InsertMetricsBatch NewMemStorage
          [counterRecord "c" 10, counterRecord "c" 20, counterRecord "c" 30] =
        some (setCounterSeq NewMemStorage "c" [10, 20, 30]) ∧
      GetCounter (MemStorage.mk [] [("c", 60)]) "c" = Except.ok 60 :=
  ⟨(insertBatch_eq_mergeThenApply NewMemStorage (MemStorage.mk [] [("c", 60)])
      [counterRecord "c" 10, counterRecord "c" 20, counterRecord "c" 30] (by rfl)).1 "c",
   rfl, rfl⟩

/-- C4: the router's table registers POST `/updates`, whose handler applies
the decoded JSON array of records to the storage engine as one batch update;
evaluated on the repository's own documentation example (two gauges and one
counter) the batch lands in the store. -/
theorem updates_route_batch :
    routeFor "POST" "/updates" = some Handler.updatesBatch ∧
      (∀ s b, handleUpdates s b = InsertMetricsBatch s b) ∧
      handleUpdates NewMemStorage
          [gaugeRecord "CPUUsage" 100, gaugeRecord "MemoryUsage" 200,
           counterRecord "RequestCount" 5] =
        some (MemStorage.mk [("CPUUsage", 100), ("MemoryUsage", 200)]
          [("RequestCount", 5)]) :=
  ⟨rfl, fun s b => rfl, rfl⟩

/-- C5: the agent's batch send computes the `HashSHA256` header as the
hex-encoded HMAC-SHA256 of the gzip-compressed JSON batch — after
compression and before hybrid encryption — exactly when the configured key
is non-empty; an empty key emits no such header; and the wire body is the
compressed batch, hybrid-encrypted when a public key is configured. -/
theorem batch_send_hash_header (c : AgentCodec) (metrics : List Metrics)
    (endpoint key : String) (enc : Bool)
    (hlen : ∀ k d, (c.hmacSHA256 k d).length = 32) :
    (key ≠ "" →
        mapGet "HashSHA256" (sendMetricsBatchRequest c metrics endpoint key enc).headers =
          some (hexEncode (c.hmacSHA256 key (c.gzipCompress (c.jsonMarshal metrics))))) ∧
      (key = "" →
        mapGet "HashSHA256" (sendMetricsBatchRequest c metrics endpoint key enc).headers =
          none) ∧
      (sendMetricsBatchRequest c metrics endpoint key enc).body =
        (if enc then c.encryptHybrid (c.gzipCompress (c.jsonMarshal metrics))
         else c.gzipCompress (c.jsonMarshal metrics)) := by
  have hne : c.hmacSHA256 key (c.gzipCompress (c.jsonMarshal metrics)) ≠ [] := by
    intro h
    have hl := hlen key (c.gzipCompress (c.jsonMarshal metrics))
    rw [h] at hl
    simp at hl
  refine ⟨?_, ?_, ?_⟩
  · intro hk
    simp only [sendMetricsBatchRequest, calculateSHA256Hash]
    rw [if_pos hk, if_pos (hexEncode_ne_empty hne)]
    simp [mapGet]
  · intro hk
    subst hk
    simp only [sendMetricsBatchRequest, calculateSHA256Hash]
    rw [if_neg (by simp)]
    simp [mapGet]
  · rfl

/-- C5, witness at a concrete codec whose MAC is a constant 32-byte string:
with key "secret" the header carries the hex MAC of the compressed bytes;
with the empty key no `HashSHA256` header is present. -/
theorem batch_send_hash_header_witness :
    mapGet "HashSHA256"
        (sendMetricsBatchRequest
          (AgentCodec.mk (fun _ => []) (fun l => l) (fun _ _ => List.replicate 32 0)
            (fun l => l))
          [] "http://localhost:8080" "secret" false).headers =
      some (hexEncode (List.replicate 32 0)) ∧
    mapGet "HashSHA256"
        (sendMetricsBatchRequest
          (AgentCodec.mk (fun _ => []) (fun l => l) (fun _ _ => List.replicate 32 0)
            (fun l => l))
          [] "http://localhost:8080" "" false).headers = none :=
  ⟨(batch_send_hash_header _ [] "http://localhost:8080" "secret" false
      (fun k d => by simp)).1 (by decide),
   (batch_send_hash_header _ [] "http://localhost:8080" "" false
      (fun k d => by simp)).2.1 rfl⟩

/-- C7, counterexample: the claim as stated says a non-200 HTTP response is
not retried, but with no custom `CheckRetry` the default policy retries
HTTP 500 — a persistent 500 yields 4 attempts, not 1. -/
theorem retry_non200_cex :
    clientDo (fun _ => AttemptResult.response 500) = (4, [1, 3, 5]) ∧ (4 : Nat) ≠ 1 :=
  ⟨rfl, by decide⟩

/-- C7 (amended): a failure classified as retryable on every attempt yields
exactly 4 attempts (1 initial + RetryMax = 3 retries) with waits of 1 s, 3 s
and 5 s before giving up — in particular a persistent transport failure —
while a non-retryable first outcome yields exactly one attempt.
Classification follows go-retryablehttp's default policy (the code installs
no custom `CheckRetry`): transport errors, HTTP 429 and HTTP 5xx except 501
are retryable; other non-200 responses such as 404 or 400 are not. -/
theorem retry_bound_backoff (outcomes : Nat → AttemptResult) :
    ((∀ i, outcomes i = AttemptResult.transportError) →
        clientDo outcomes = (4, [1, 3, 5])) ∧
      (shouldRetry (outcomes 0) = false → clientDo outcomes = (1, [])) ∧
      (shouldRetry AttemptResult.transportError = true ∧
        shouldRetry (AttemptResult.response 500) = true ∧
        shouldRetry (AttemptResult.response 429) = true ∧
        shouldRetry (AttemptResult.response 501) = false ∧
        shouldRetry (AttemptResult.response 404) = false ∧
        shouldRetry (AttemptResult.response 400) = false) := by
  refine ⟨?_, ?_, by decide⟩
  · intro h
    simp [clientDo, retryGo, h 0, h 1, h 2, shouldRetry, customBackoff]
  · intro h
    simp [clientDo, retryGo, h]

/-- C7, witness: a persistent transport failure makes exactly 4 attempts
with waits 1, 3, 5; a first-attempt 404 response makes exactly one. -/
theorem retry_bound_backoff_witness :
    clientDo (fun _ => AttemptResult.transportError) = (4, [1, 3, 5]) ∧
      clientDo (fun _ => AttemptResult.response 404) = (1, []) :=
  ⟨(retry_bound_backoff _).1 (fun i => rfl), (retry_bound_backoff _).2.1 (by decide)⟩

/-- C6: loading any reordering of a well-formed store's snapshot listing into
a fresh empty store reproduces exactly the original set of
(name, kind, value) triples. -/
theorem snapshot_roundtrip (s : MemStorage) (l : List Metrics)
    (hWF : WFStore s) (hperm : l.Perm (saveSnapshot s)) :
    ∀ t : Metrics, t ∈ GetAll (loadSnapshot NewMemStorage l) ↔ t ∈ GetAll s := by
  obtain ⟨hG, hC, hR⟩ := hWF
  have hcnt : ∀ n, mapGet n (loadSnapshot NewMemStorage l).Counters = mapGet n s.Counters := by
    intro n
    rw [loadSnapshot, deserializeMetrics, loadMetrics_counters, mergedCounterLookup]
    have hdperm : (counterDeltasOf l n).Perm (counterDeltasOf (GetAll s) n) := by
      have hp := hperm.filterMap
        (fun r => if r.MType = "counter" ∧ r.ID = n then r.Delta else none)
      simpa [counterDeltasOf, saveSnapshot, serializeMetrics] using hp
    rw [counterDeltasOf_GetAll hC n] at hdperm
    cases hval : mapGet n s.Counters with
    | none =>
      rw [hval] at hdperm
      simp only [Option.elim_none] at hdperm
      rw [if_pos hdperm.eq_nil]
      rfl
    | some cval =>
      rw [hval] at hdperm
      simp only [Option.elim_some] at hdperm
      have hl : counterDeltasOf l n = [cval] := List.perm_singleton.mp hdperm
      rw [if_neg (by simp [hl]), hl]
      have hmem : (n, cval) ∈ s.Counters := mem_of_mapGet_some hval
      have hrange : isInt64 cval := hR _ hmem
      simp only [NewMemStorage, mapGet, Option.getD_none, List.sum_cons, List.sum_nil]
      rw [show (0 : Int) + (cval + 0) = cval by ring, wrap64_eq_self hrange]
  have hgau : ∀ n, mapGet n (loadSnapshot NewMemStorage l).Gauges = mapGet n s.Gauges := by
    intro n
    rw [loadSnapshot, deserializeMetrics, loadMetrics_gauges, mergedGaugeLookup, lastGaugeOf]
    have hvperm : (gaugeValuesOf l n).Perm (gaugeValuesOf (GetAll s) n) := by
      have hp := hperm.filterMap
        (fun r => if r.MType = "gauge" ∧ r.ID = n then r.Value else none)
      simpa [gaugeValuesOf, saveSnapshot, serializeMetrics] using hp
    rw [gaugeValuesOf_GetAll hG n] at hvperm
    cases hval : mapGet n s.Gauges with
    | none =>
      rw [hval] at hvperm
      simp only [Option.elim_none] at hvperm
      rw [hvperm.eq_nil]
      rfl
    | some v =>
      rw [hval] at hvperm
      simp only [Option.elim_some] at hvperm
      have hl : gaugeValuesOf l n = [v] := List.perm_singleton.mp hvperm
      rw [hl]
      rfl
  have hWFload : WFStore (loadSnapshot NewMemStorage l) :=
    WFStore_loadMetrics _ WFStore_new
  intro t
  rw [mem_GetAll_iff hWFload, mem_GetAll_iff ⟨hG, hC, hR⟩]
  simp only [hcnt, hgau]

/-- C6, witness: a store with one gauge and one counter round-trips through
the reversed snapshot listing. -/
theorem snapshot_roundtrip_witness :
    (counterRecord "k" 5 ∈ GetAll (loadSnapshot NewMemStorage
        [gaugeRecord "g" 11, counterRecord "k" 5]) ↔
      counterRecord "k" 5 ∈ GetAll (MemStorage.mk [("g", 11)] [("k", 5)])) :=
  snapshot_roundtrip (MemStorage.mk [("g", 11)] [("k", 5)])
    [gaugeRecord "g" 11, counterRecord "k" 5]
    ⟨by decide, by decide, by decide⟩ (by decide) (counterRecord "k" 5)

/-- C8: after any successfully applied operation trace from the empty store
in which no gauge (respectively counter) was ever set under the name,
`GetGauge` (respectively `GetCounter`) returns the "metric not found" error —
never a zero value as a success. -/
theorem unseen_name_not_found (ops : List Op) (n : String) (s : MemStorage)
    (h : applyOps NewMemStorage ops = some s)
    (hg : ∀ op ∈ ops, opSetsGauge n op = false)
    (hc : ∀ op ∈ ops, opSetsCounter n op = false) :
    GetGauge s n = Except.error "metric not found" ∧
      GetCounter s n = Except.error "metric not found" := by
  have h1 : mapGet n s.Gauges = none := applyOps_gauge_none ops h hg rfl
  have h2 : mapGet n s.Counters = none := applyOps_counter_none ops h hc rfl
  constructor
  · simp only [GetGauge, h1]
  · simp only [GetCounter, h2]

/-- C8, witness: a trace that sets a gauge "a", a counter "b" and a batch for
"c" leaves reads of the untouched name "x" as not-found errors. -/
theorem unseen_name_not_found_witness :
    GetGauge (MemStorage.mk [("a", 1)] [("b", 2), ("c", 3)]) "x" =
        Except.error "metric not found" ∧
      GetCounter (MemStorage.mk [("a", 1)] [("b", 2), ("c", 3)]) "x" =
        Except.error "metric not found" :=
  unseen_name_not_found
    [Op.setGauge "a" 1, Op.setCounter "b" 2, Op.insertBatch [counterRecord "c" 3]] "x"
    (MemStorage.mk [("a", 1)] [("b", 2), ("c", 3)]) (by rfl) (by decide) (by decide)

/-- C9, counterexample: the claim's DB half says such records are silently
skipped, but a batch holding one counter record with absent delta changes a
fresh table (it creates a row with empty type) where a skip would leave it
unchanged; the Mem half panics as claimed. -/
theorem db_batch_skip_cex :
    InsertMetricsBatch NewMemStorage [{ ID := "c", MType := "counter" }] = none ∧
      DBInsertMetricsBatch [] [{ ID := "c", MType := "counter" }] ≠ ([] : DBState) := by
  refine ⟨rfl, ?_⟩
  decide

/-- C9 (amended): `MemStorage.InsertMetricsBatch` completes exactly on
batches whose records all carry the field matching their kind — any gauge
record with absent value or counter record with absent delta nil-panics —
whereas `DBStorage.InsertMetricsBatch` drops such a record's value but still
upserts its id: when no well-formed record shares the id, it creates — or
overwrites an existing row into — a row with empty type and NULL delta. -/
theorem batch_nil_semantics :
    (∀ (m : MemStorage) (b : List Metrics),
        (InsertMetricsBatch m b).isSome = b.all recordWF) ∧
      DBInsertMetricsBatch [] [{ ID := "c", MType := "counter" }] =
        [("c", { delta := none, rowType := "", value := none })] ∧
      DBInsertMetricsBatch [("c", { delta := some 7, rowType := "counter", value := none })]
          [{ ID := "c", MType := "counter" }] =
        [("c", { delta := none, rowType := "", value := none })] :=
  ⟨fun m b => insertBatch_isSome b m, rfl, rfl⟩

/-- C10: the two metric kinds are independent namespaces in `MemStorage`:
`SetCounter` leaves the gauge map and every `GetGauge` read unchanged,
`SetGauge` leaves the counter map and every `GetCounter` read unchanged, and
a name holding both kinds contributes one counter entry and one gauge entry
to `GetAll`. -/
theorem kind_namespaces_independent (m : MemStorage) (q n : String) (d : Int)
    (v : FloatBits) (c : Int) (w : FloatBits)
    (hc : mapGet n m.Counters = some c) (hg : mapGet n m.Gauges = some w) :
    (SetCounter m q d).Gauges = m.Gauges ∧
      (∀ r, GetGauge (SetCounter m q d) r = GetGauge m r) ∧
      (SetGauge m q v).Counters = m.Counters ∧
      (∀ r, GetCounter (SetGauge m q v) r = GetCounter m r) ∧
      counterRecord n c ∈ GetAll m ∧ gaugeRecord n w ∈ GetAll m := by
  refine ⟨rfl, fun r => rfl, rfl, fun r => rfl, ?_, ?_⟩
  · exact List.mem_append_left _
      (List.mem_map.mpr ⟨(n, c), mem_of_mapGet_some hc, rfl⟩)
  · exact List.mem_append_right _
      (List.mem_map.mpr ⟨(n, w), mem_of_mapGet_some hg, rfl⟩)

/-- C10, witness: the name "x" holds gauge 3 and counter 7 at once; setting
the other kind elsewhere leaves each map unchanged, and `GetAll` carries
both entries. -/
theorem kind_namespaces_independent_witness :
    counterRecord "x" 7 ∈ GetAll (MemStorage.mk [("x", 3)] [("x", 7)]) ∧
      gaugeRecord "x" 3 ∈ GetAll (MemStorage.mk [("x", 3)] [("x", 7)]) :=
  ⟨(kind_namespaces_independent (MemStorage.mk [("x", 3)] [("x", 7)]) "y" "x" 1 2 7 3
      rfl rfl).2.2.2.2.1,
   (kind_namespaces_independent (MemStorage.mk [("x", 3)] [("x", 7)]) "y" "x" 1 2 7 3
      rfl rfl).2.2.2.2.2⟩

end GoMetrics
